import Mathlib

/-!
# Interaction engine of `threescene.js`

A shallow embedding of the stateful core of `src/threescene.js`:

* the three carousel arrays `projectImages`, `liveProjectImages`, `certImages`,
  their construction in `addImages` and the click handler `onMouseClick`;
* the distance fade computed per image in `animate`;
* the wheel listener registered in `addWorldControls`;
* the right-button `mousedown` and `mouseup` listeners that zoom the camera;
* the pointer normalisation of the two `click` handlers.

Meshes are JavaScript objects compared by reference, so a mesh is represented by
the number of the allocation that created it, and the `visible` field of all
meshes is a map from these numbers to booleans.  Distances, pointer coordinates
and fields of view are exact rationals.  The wheel listener is given twice: read
over exact arithmetic (`wheelListener`), and as it executes on IEEE 754 binary64
numbers with a possibly undefined `mainDrone` (`wheelListenerF64`).
-/

namespace ThreeScene

/-! ## JavaScript array primitives -/

/-- A reference to a `THREE.Mesh` object: the index of its allocation. -/
abbrev MeshId := Nat

/-- JavaScript `Array.prototype.indexOf`: the first index holding `x`, or `-1`. -/
def indexOf (xs : List MeshId) (x : MeshId) : Int :=
  match xs with
  | [] => -1
  | y :: ys =>
    if y = x then 0
    else
      let r := indexOf ys x
      if r = -1 then -1 else r + 1

/-- JavaScript `Array.prototype.splice(start, deleteCount)`: the deleted elements and the
array that remains.  A negative `start` counts from the end and `start` is
clamped to the array bounds, as in ECMAScript. -/
def splice (xs : List MeshId) (start : Int) (deleteCount : Nat) :
    List MeshId × List MeshId :=
  let len : Int := xs.length
  let s : Nat := (if start < 0 then max (len + start) 0 else min start len).toNat
  ((xs.drop s).take deleteCount, xs.take s ++ xs.drop (s + deleteCount))

/-- Assignment `mesh.visible = b` on the object referenced by `mesh`. -/
def setVisible (vis : MeshId → Bool) (mesh : MeshId) (b : Bool) : MeshId → Bool :=
  fun m => if m = mesh then b else vis m

/-! ## Module state -/

/-- The module-level variables touched by `addImages` and `onMouseClick`. -/
structure World where
  /-- Number of meshes allocated so far (the next fresh reference). -/
  nextId : Nat
  /-- The `visible` field of every mesh. -/
  visible : MeshId → Bool
  projectImages : List MeshId
  liveProjectImages : List MeshId
  certImages : List MeshId
  /-- The freestanding images, used by the fade pass only. -/
  images : List MeshId

/-- State after the module-level `let` declarations: all arrays empty. -/
def initWorld : World :=
  { nextId := 0, visible := fun _ => true, projectImages := [],
    liveProjectImages := [], certImages := [], images := [] }

/-! ## `onMouseClick` -/

/-- One of the three identical blocks of `onMouseClick`, for the array `group`:
```
let index = group.indexOf(clickedMesh);
if (index !== -1) {
    let currentImage = group.splice(index, 1)[0];
    currentImage.visible = false;
    group.push(currentImage);
    group[0].visible = true;
}
```
Reading a property of `undefined` throws a `TypeError`. -/
def cycleStep (vis : MeshId → Bool) (group : List MeshId) (clickedMesh : MeshId) :
    Except String ((MeshId → Bool) × List MeshId) :=
  let index := indexOf group clickedMesh
  if index ≠ -1 then
    let (deleted, remaining) := splice group index 1
    match deleted.head? with
    | none => .error "TypeError: currentImage is undefined"
    | some currentImage =>
      let vis1 := setVisible vis currentImage false
      let group1 := remaining ++ [currentImage]
      match group1.head? with
      | none => .error "TypeError: group[0] is undefined"
      | some first => .ok (setVisible vis1 first true, group1)
  else .ok (vis, group)

/-- The click handler `onMouseClick`.  `intersects` is the list of objects
returned by `raycaster.intersectObjects`, nearest first. -/
def onMouseClick (w : World) (intersects : List MeshId) : Except String World :=
  if intersects.length > 0 then
    match intersects.head? with
    | none => .error "TypeError: intersects[0] is undefined"
    | some clickedMesh =>
      match cycleStep w.visible w.projectImages clickedMesh with
      | .error e => .error e
      | .ok (vis1, projectImages) =>
        match cycleStep vis1 w.liveProjectImages clickedMesh with
        | .error e => .error e
        | .ok (vis2, liveProjectImages) =>
          match cycleStep vis2 w.certImages clickedMesh with
          | .error e => .error e
          | .ok (vis3, certImages) =>
            .ok { w with visible := vis3, projectImages := projectImages,
                         liveProjectImages := liveProjectImages,
                         certImages := certImages }
  else .ok w

/-- A finite sequence of click events, handled one after the other. -/
def clicks (w : World) : List (List MeshId) → Except String World
  | [] => .ok w
  | intersects :: rest =>
    match onMouseClick w intersects with
    | .error e => .error e
    | .ok w1 => clicks w1 rest

/-! ## `addImages` -/

/-- The body shared by the three `forEach` loops of `addImages`, run over the
remaining `paths` with the running `index`:
```
const mesh = new THREE.Mesh(geometry, material);
if (index !== 0) mesh.visible = false;
group.push(mesh);
```
A new `THREE.Mesh` has `visible = true`. -/
def forEachPath (paths : List String) (index : Nat) (nextId : Nat)
    (vis : MeshId → Bool) (group : List MeshId) :
    Nat × (MeshId → Bool) × List MeshId :=
  match paths with
  | [] => (nextId, vis, group)
  | _ :: rest =>
    let mesh := nextId
    let vis1 := setVisible vis mesh true
    let vis2 := if index ≠ 0 then setVisible vis1 mesh false else vis1
    forEachPath rest (index + 1) (nextId + 1) vis2 (group ++ [mesh])

/-- The five freestanding images `proImage11 .. proImage15` created at the end
of `addImages`: each is a new visible mesh pushed to `images`. -/
def addFreestanding (count : Nat) (w : World) : World :=
  match count with
  | 0 => w
  | n + 1 =>
    addFreestanding n
      { w with nextId := w.nextId + 1,
               visible := setVisible w.visible w.nextId true,
               images := w.images ++ [w.nextId] }

/-- The function `addImages`, for given lists of image paths. -/
def addImagesFrom (projectImagePaths liveProjectImagePaths certImagePaths : List String)
    (w : World) : World :=
  let (n1, v1, p) := forEachPath projectImagePaths 0 w.nextId w.visible w.projectImages
  let (n2, v2, l) := forEachPath liveProjectImagePaths 0 n1 v1 w.liveProjectImages
  let (n3, v3, c) := forEachPath certImagePaths 0 n2 v2 w.certImages
  addFreestanding 5
    { w with nextId := n3, visible := v3, projectImages := p,
             liveProjectImages := l, certImages := c }

def projectImagePaths : List String :=
  ["/assets/images/portfolio/project/project1.png",
   "/assets/images/portfolio/project/project2.png"]

def liveProjectImagePaths : List String :=
  ["/assets/images/portfolio/liveProject/liveProject1.png",
   "/assets/images/portfolio/liveProject/liveProject2.png"]

def certImagePaths : List String :=
  ["/assets/images/portfolio/cert/cert1.png",
   "/assets/images/portfolio/cert/cert2.png",
   "/assets/images/portfolio/cert/cert3.png",
   "/assets/images/portfolio/cert/cert4.png",
   "/assets/images/portfolio/cert/cert5.png",
   "/assets/images/portfolio/cert/cert6.png",
   "/assets/images/portfolio/cert/cert7.png"]

/-- The function `addImages` with the path lists written in the source. -/
def addImages (w : World) : World :=
  addImagesFrom projectImagePaths liveProjectImagePaths certImagePaths w

/-- Exactly one member of `group` is visible, and it is the element at index 0. -/
def SingleVisible (vis : MeshId → Bool) (group : List MeshId) : Prop :=
  ∃ first, group.head? = some first ∧ ∀ m ∈ group, (vis m = true ↔ m = first)

/-- The state the carousel handler maintains: the three arrays have no repeated
mesh, share no mesh, and each shows exactly its first element. -/
def CarouselInv (w : World) : Prop :=
  w.projectImages.Nodup ∧ w.liveProjectImages.Nodup ∧ w.certImages.Nodup ∧
  w.projectImages.Disjoint w.liveProjectImages ∧
  w.projectImages.Disjoint w.certImages ∧
  w.liveProjectImages.Disjoint w.certImages ∧
  SingleVisible w.visible w.projectImages ∧
  SingleVisible w.visible w.liveProjectImages ∧
  SingleVisible w.visible w.certImages

/-- The array `group` has the same order after a step as before it, and every
one of its members has the same `visible` flag. -/
def GroupUnchanged (vis vis1 : MeshId → Bool) (group group1 : List MeshId) : Prop :=
  group1 = group ∧ ∀ m ∈ group, vis1 m = vis m

/-! ## Distance fade in `animate` -/

def fadeStartDistance : ℚ := 22

def fadeEndDistance : ℚ := 26

/-- The opacity `animate` assigns to an image at the given distance:
```
let opacity = 1;
if (distance > fadeStartDistance) {
    const fadeAmount = (distance - fadeStartDistance) / (fadeEndDistance - fadeStartDistance);
    opacity = 1 - Math.min(fadeAmount, 1);
}
``` -/
def fadeOpacity (distance : ℚ) : ℚ :=
  let opacity : ℚ := 1
  if distance > fadeStartDistance then
    let fadeAmount := (distance - fadeStartDistance) / (fadeEndDistance - fadeStartDistance)
    1 - min fadeAmount 1
  else opacity

/-- The piecewise function written in the specification of the fade pass. -/
def specOpacity (fadeStart fadeEnd distance : ℚ) : ℚ :=
  if distance ≤ fadeStart then 1
  else if distance ≥ fadeEnd then 0
  else 1 - (distance - fadeStart) / (fadeEnd - fadeStart)

/-! ## Wheel listener of `addWorldControls` -/

/-- The camera rig: `camera.position.z`, `mainDrone.position.z` and the target
of the rotation tween on `mainDrone.rotation.x`. -/
structure Rig where
  cameraZ : ℚ
  droneZ : ℚ
  droneRotationTarget : ℚ

/-- JavaScript `Math.sign` on a number. -/
def mathSign (x : ℚ) : ℚ :=
  if x > 0 then 1 else if x < 0 then -1 else 0

/-- The `wheel` listener read over exact arithmetic, with the drone loaded (the
listener as it executes, with binary64 rounding and a possibly undefined
`mainDrone`, is `wheelListenerF64`):
```
const scrollDirection = Math.sign(event.deltaY);
if (camera.position.z > -186 || scrollDirection < 0) {
    camera.position.z -= scrollDirection;
    mainDrone.position.z -= scrollDirection;
}
const targetRotation = scrollDirection > 0 ? -0.6 : 0.6;
gsap.to(mainDrone.rotation, { x: targetRotation, ... });
``` -/
def wheelListener (rig : Rig) (deltaY : ℚ) : Rig :=
  let scrollDirection := mathSign deltaY
  let rig1 :=
    if rig.cameraZ > -186 ∨ scrollDirection < 0 then
      { rig with cameraZ := rig.cameraZ - scrollDirection,
                 droneZ := rig.droneZ - scrollDirection }
    else rig
  let targetRotation : ℚ := if scrollDirection > 0 then -0.6 else 0.6
  { rig1 with droneRotationTarget := targetRotation }

/-- A finite sequence of wheel events, handled one after the other. -/
def wheelTicks (rig : Rig) : List ℚ → Rig
  | [] => rig
  | deltaY :: rest => wheelTicks (wheelListener rig deltaY) rest

/-! ## The wheel listener in binary64 arithmetic -/

/-- Round to the nearest integer, ties to the even one. -/
def roundHalfEven (x : ℚ) : ℤ :=
  let f := ⌊x⌋
  if x - f < 1 / 2 then f
  else if x - f > 1 / 2 then f + 1
  else if f % 2 = 0 then f else f + 1

/-- The result of a JavaScript arithmetic operation whose exact value is `x`:
the IEEE 754 binary64 number nearest to `x` (53 significant bits, ties to
even).  The exponent range is left unbounded; the listener only subtracts `-1`,
`0` or `1` from a finite double, which neither overflows nor lands strictly
between two subnormal numbers. -/
def roundF64 (x : ℚ) : ℚ :=
  if x = 0 then 0
  else
    let ulp : ℚ := 2 ^ (Int.log 2 |x| - 52)
    roundHalfEven (x / ulp) * ulp

/-- The object `mainDrone` once `drone.glb` has loaded: `position.z` and the
target of the rotation tween on `rotation.x`. -/
structure Drone where
  z : ℚ
  rotationTarget : ℚ

/-- The variables the `wheel` listener works on: `camera.position.z` (a double)
and `mainDrone`, which is `undefined` until its model has loaded. -/
structure RigF64 where
  cameraZ : ℚ
  mainDrone : Option Drone

/-- The `wheel` listener as it executes, with binary64 arithmetic and the
exception raised by a property access on an undefined `mainDrone`.  The result
is the state the listener leaves behind and the uncaught exception, if any:
```
const scrollDirection = Math.sign(event.deltaY);
if (camera.position.z > -186 || scrollDirection < 0) {
    camera.position.z -= scrollDirection;
    camera.lookAt(0, 0, 0);
    mainDrone.position.z -= scrollDirection;
}
const targetRotation = scrollDirection > 0 ? -0.6 : 0.6;
gsap.to(mainDrone.rotation, { x: targetRotation, ... });
``` -/
def wheelListenerF64 (s : RigF64) (deltaY : ℚ) : RigF64 × Option String :=
  let scrollDirection := mathSign deltaY
  let targetRotation : ℚ := if scrollDirection > 0 then roundF64 (-0.6) else roundF64 0.6
  if s.cameraZ > -186 ∨ scrollDirection < 0 then
    let cameraZ := roundF64 (s.cameraZ - scrollDirection)
    match s.mainDrone with
    | none => ({ s with cameraZ := cameraZ }, some "TypeError: mainDrone is undefined")
    | some drone =>
      ({ cameraZ := cameraZ,
         mainDrone := some { z := roundF64 (drone.z - scrollDirection),
                             rotationTarget := targetRotation } }, none)
  else
    match s.mainDrone with
    | none => (s, some "TypeError: mainDrone is undefined")
    | some drone =>
      ({ s with mainDrone := some { drone with rotationTarget := targetRotation } }, none)

/-- A finite sequence of wheel events; an uncaught exception ends the listener
that raised it, and the next event is handled in the state left behind. -/
def wheelTicksF64 (s : RigF64) : List ℚ → RigF64
  | [] => s
  | deltaY :: rest => wheelTicksF64 (wheelListenerF64 s deltaY).1 rest

/-! ## Right-button zoom: the `mousedown` and `mouseup` listeners -/

/-- The camera's field of view `camera.fov`, the module variable `originalFov`
(undefined until the first right-button press) and the target of the tween that
`gsap.to(camera, {fov: ...})` last started on `camera.fov`, if any.  The writes
to the overlay element `hudAds` do not touch the camera and are left out. -/
structure ZoomState where
  fov : ℚ
  originalFov : Option ℚ
  fovTarget : Option ℚ

/-- State after `init`: `new THREE.PerspectiveCamera(75, ...)`, no tween. -/
def initZoom : ZoomState :=
  { fov := 75, originalFov := none, fovTarget := none }

/-- The `mousedown` listener:
```
if (event.button === 2) {
    originalFov = camera.fov;
    gsap.to(camera, {fov: camera.fov - 20, duration: 0.5, ...});
}
``` -/
def mouseDownListener (s : ZoomState) (button : Nat) : ZoomState :=
  if button = 2 then
    { s with originalFov := some s.fov, fovTarget := some (s.fov - 20) }
  else s

/-- The `mouseup` listener:
```
if (event.button === 2) {
    gsap.to(camera, {fov: originalFov, duration: 0.5, ...});
}
``` -/
def mouseUpListener (s : ZoomState) (button : Nat) : ZoomState :=
  if button = 2 then { s with fovTarget := s.originalFov } else s

/-- One rendered frame of the tween on `camera.fov`: the GSAP library moves the
field of view from its current value towards the target by the fraction
`progress` of the remaining distance (`progress = 1` once the 0.5 s have
elapsed).  The recorded `originalFov` and the target are not written. -/
def tweenFrame (s : ZoomState) (progress : ℚ) : ZoomState :=
  match s.fovTarget with
  | none => s
  | some target => { s with fov := s.fov + (target - s.fov) * progress }

/-- A finite sequence of rendered frames. -/
def tweenFrames (s : ZoomState) : List ℚ → ZoomState
  | [] => s
  | progress :: rest => tweenFrames (tweenFrame s progress) rest

/-! ## Pointer normalisation in the two `click` handlers -/

/-- The pair `(mouse.x, mouse.y)` written by the `click` listener registered in
`addWorldControls`:
```
mouse.x = (event.clientX / window.innerWidth) * 2 - 1;
mouse.y = -(event.clientY / window.innerHeight) * 2 + 1;
``` -/
def clickListenerMouse (clientX clientY innerWidth innerHeight : ℚ) : ℚ × ℚ :=
  ((clientX / innerWidth) * 2 - 1, -(clientY / innerHeight) * 2 + 1)

/-- The pair `(mouse.x, mouse.y)` written at the start of `onMouseClick`:
```
mouse.x = (event.clientX / window.innerWidth) * 2 - 1;
mouse.y = -(event.clientY / window.innerHeight) * 2 + 1;
``` -/
def onMouseClickMouse (clientX clientY innerWidth innerHeight : ℚ) : ℚ × ℚ :=
  ((clientX / innerWidth) * 2 - 1, -(clientY / innerHeight) * 2 + 1)

/-! ## Lemmas on the array primitives -/

theorem indexOf_of_not_mem (xs : List MeshId) (x : MeshId) (h : x ∉ xs) :
    indexOf xs x = -1 := by
  induction xs with
  | nil => rfl
  | cons y ys ih =>
    have hy : y ≠ x := fun e => h (by simp [e])
    have hys : x ∉ ys := fun e => h (by simp [e])
    simp [indexOf, hy, ih hys]

theorem indexOf_of_mem (xs : List MeshId) (x : MeshId) (h : x ∈ xs) :
    indexOf xs x = (xs.indexOf x : Nat) := by
  induction xs with
  | nil => simp at h
  | cons y ys ih =>
    by_cases hy : y = x
    · subst hy
      simp [indexOf]
    · have hys : x ∈ ys := by
        rcases List.mem_cons.mp h with e | e
        · exact absurd e.symm hy
        · exact e
      have hne : ((ys.indexOf x : Nat) : Int) ≠ -1 := by omega
      simp only [indexOf, hy, if_false, ih hys, hne]
      rw [List.indexOf_cons_ne _ hy]
      push_cast
      rfl

theorem splice_one_of_lt (xs : List MeshId) (i : Nat) (h : i < xs.length) :
    splice xs (i : Int) 1 = ([xs.get ⟨i, h⟩], xs.eraseIdx i) := by
  have hs : (if (i : Int) < 0 then max ((xs.length : Int) + i) 0
      else min (i : Int) (xs.length : Int)).toNat = i := by
    have h1 : ¬ ((i : Int) < 0) := by omega
    have h2 : min (i : Int) (xs.length : Int) = i := by omega
    simp [h1, h2]
  unfold splice
  simp only [hs]
  have hd : (List.drop i xs).take 1 = [xs.get ⟨i, h⟩] := by
    rw [List.drop_eq_getElem_cons h]
    rfl
  rw [hd, List.eraseIdx_eq_take_drop_succ]

/-- What the block does when the clicked mesh is in the array: it is taken out
at its first index, hidden, appended, and the new first element is shown. -/
theorem cycleStep_of_mem (vis : MeshId → Bool) (group : List MeshId) (x : MeshId)
    (h : x ∈ group) :
    ∃ first, (group.eraseIdx (group.indexOf x) ++ [x]).head? = some first ∧
      cycleStep vis group x =
        .ok (setVisible (setVisible vis x false) first true,
             group.eraseIdx (group.indexOf x) ++ [x]) := by
  have hlt : group.indexOf x < group.length := List.indexOf_lt_length.mpr h
  have hne : ((group.indexOf x : Nat) : Int) ≠ -1 := by omega
  have hget : group.get ⟨group.indexOf x, hlt⟩ = x := List.indexOf_get hlt
  cases hhd : (group.eraseIdx (group.indexOf x) ++ [x]).head? with
  | none => simp at hhd
  | some first =>
    refine ⟨first, rfl, ?_⟩
    unfold cycleStep
    simp only [indexOf_of_mem group x h, hne, ne_eq, not_false_eq_true, if_true,
      splice_one_of_lt group _ hlt, hget, List.head?_cons, hhd]

theorem cycleStep_of_not_mem (vis : MeshId → Bool) (group : List MeshId) (x : MeshId)
    (h : x ∉ group) : cycleStep vis group x = .ok (vis, group) := by
  unfold cycleStep
  simp [indexOf_of_not_mem group x h]

theorem eraseIdx_indexOf_perm (group : List MeshId) (x : MeshId) (h : x ∈ group) :
    (group.eraseIdx (group.indexOf x) ++ [x]).Perm group := by
  rw [List.eraseIdx_indexOf_eq_erase]
  exact (List.perm_append_comm.trans (List.perm_cons_erase h).symm)

theorem cycleStep_total (vis : MeshId → Bool) (group : List MeshId) (x : MeshId) :
    ∃ r, cycleStep vis group x = .ok r := by
  by_cases h : x ∈ group
  · obtain ⟨first, _, hc⟩ := cycleStep_of_mem vis group x h
    exact ⟨_, hc⟩
  · exact ⟨_, cycleStep_of_not_mem vis group x h⟩

theorem cycleStep_perm {vis vis1 : MeshId → Bool} {group group1 : List MeshId}
    {x : MeshId} (h : cycleStep vis group x = .ok (vis1, group1)) :
    group1.Perm group := by
  by_cases hx : x ∈ group
  · obtain ⟨first, _, hc⟩ := cycleStep_of_mem vis group x hx
    rw [hc] at h
    cases h
    exact eraseIdx_indexOf_perm group x hx
  · rw [cycleStep_of_not_mem vis group x hx] at h
    cases h
    exact List.Perm.refl _

/-- The block writes the `visible` field of members of its own array only. -/
theorem cycleStep_frame {vis vis1 : MeshId → Bool} {group group1 : List MeshId}
    {x : MeshId} (h : cycleStep vis group x = .ok (vis1, group1))
    (m : MeshId) (hm : m ∉ group) : vis1 m = vis m := by
  by_cases hx : x ∈ group
  · obtain ⟨first, hf, hc⟩ := cycleStep_of_mem vis group x hx
    rw [hc] at h
    cases h
    have hfirst : first ∈ group :=
      (eraseIdx_indexOf_perm group x hx).mem_iff.mp (List.mem_of_mem_head? hf)
    have h1 : m ≠ first := fun e => hm (e ▸ hfirst)
    have h2 : m ≠ x := fun e => hm (e ▸ hx)
    simp [setVisible, h1, h2]
  · rw [cycleStep_of_not_mem vis group x hx] at h
    cases h
    rfl

theorem singleVisible_congr {vis vis1 : MeshId → Bool} {group : List MeshId}
    (h : ∀ m ∈ group, vis1 m = vis m) (hs : SingleVisible vis group) :
    SingleVisible vis1 group := by
  obtain ⟨first, hf, hv⟩ := hs
  exact ⟨first, hf, fun m hm => by rw [h m hm]; exact hv m hm⟩

/-- The block keeps "only the first element is visible". -/
theorem cycleStep_singleVisible {vis vis1 : MeshId → Bool} {group group1 : List MeshId}
    {x : MeshId} (hs : SingleVisible vis group)
    (h : cycleStep vis group x = .ok (vis1, group1)) : SingleVisible vis1 group1 := by
  by_cases hx : x ∈ group
  · obtain ⟨first, hf, hc⟩ := cycleStep_of_mem vis group x hx
    rw [hc] at h
    cases h
    obtain ⟨old, ho, hv⟩ := hs
    have hkey : x = old ∨ first = old := by
      cases group with
      | nil => simp at hx
      | cons a rest =>
        simp only [List.head?_cons, Option.some.injEq] at ho
        subst ho
        by_cases hax : a = x
        · exact Or.inl hax.symm
        · right
          rw [List.indexOf_cons_ne _ hax] at hf
          simpa using hf.symm
    refine ⟨first, hf, fun m hm => ?_⟩
    have hmg : m ∈ group := (eraseIdx_indexOf_perm group x hx).mem_iff.mp hm
    by_cases h1 : m = first
    · simp [setVisible, h1]
    · by_cases h2 : m = x
      · have h3 : ¬ x = first := h2 ▸ h1
        subst h2
        simp [setVisible, h3]
      · have hmo : m ≠ old := by
          rcases hkey with e | e
          · exact e ▸ h2
          · exact e ▸ h1
        have := (hv m hmg).not.mpr hmo
        simp [setVisible, h1, h2, this]
  · rw [cycleStep_of_not_mem vis group x hx] at h
    cases h
    exact hs

/-- The handler never throws: on a hit it runs the three blocks in turn. -/
theorem onMouseClick_cons (w : World) (c : MeshId) (rest : List MeshId) :
    ∃ v1 p v2 l v3 g,
      cycleStep w.visible w.projectImages c = .ok (v1, p) ∧
      cycleStep v1 w.liveProjectImages c = .ok (v2, l) ∧
      cycleStep v2 w.certImages c = .ok (v3, g) ∧
      onMouseClick w (c :: rest) =
        .ok { w with visible := v3, projectImages := p, liveProjectImages := l,
                     certImages := g } := by
  obtain ⟨⟨v1, p⟩, h1⟩ := cycleStep_total w.visible w.projectImages c
  obtain ⟨⟨v2, l⟩, h2⟩ := cycleStep_total v1 w.liveProjectImages c
  obtain ⟨⟨v3, g⟩, h3⟩ := cycleStep_total v2 w.certImages c
  refine ⟨v1, p, v2, l, v3, g, h1, h2, h3, ?_⟩
  simp [onMouseClick, h1, h2, h3]

theorem onMouseClick_nil (w : World) : onMouseClick w [] = .ok w := by
  simp [onMouseClick]

theorem onMouseClick_inv (w : World) (intersects : List MeshId) (hw : CarouselInv w) :
    ∃ w1, onMouseClick w intersects = .ok w1 ∧ CarouselInv w1 := by
  cases intersects with
  | nil => exact ⟨w, onMouseClick_nil w, hw⟩
  | cons c rest =>
    obtain ⟨v1, p, v2, l, v3, g, h1, h2, h3, hc⟩ := onMouseClick_cons w c rest
    refine ⟨_, hc, ?_⟩
    obtain ⟨np, nl, ng, dpl, dpg, dlg, sp, sl, sg⟩ := hw
    have pp := cycleStep_perm h1
    have pl := cycleStep_perm h2
    have pg := cycleStep_perm h3
    have dpl1 : p.Disjoint l := fun m hp hl => dpl (pp.mem_iff.mp hp) (pl.mem_iff.mp hl)
    have dpg1 : p.Disjoint g := fun m hp hg => dpg (pp.mem_iff.mp hp) (pg.mem_iff.mp hg)
    have dlg1 : l.Disjoint g := fun m hl hg => dlg (pl.mem_iff.mp hl) (pg.mem_iff.mp hg)
    refine ⟨pp.nodup_iff.mpr np, pl.nodup_iff.mpr nl, pg.nodup_iff.mpr ng,
      dpl1, dpg1, dlg1, ?_, ?_, ?_⟩
    · have s1 : SingleVisible v1 p := cycleStep_singleVisible sp h1
      show SingleVisible v3 p
      refine singleVisible_congr (fun m hm => ?_) s1
      have hmp : m ∈ w.projectImages := pp.mem_iff.mp hm
      rw [cycleStep_frame h3 m (fun e => dpg hmp e),
        cycleStep_frame h2 m (fun e => dpl hmp e)]
    · have s0 : SingleVisible v1 w.liveProjectImages :=
        singleVisible_congr (fun m hm => cycleStep_frame h1 m (fun e => dpl e hm)) sl
      have s2 : SingleVisible v2 l := cycleStep_singleVisible s0 h2
      show SingleVisible v3 l
      refine singleVisible_congr (fun m hm => ?_) s2
      exact cycleStep_frame h3 m (fun e => dlg (pl.mem_iff.mp hm) e)
    · have s0 : SingleVisible v2 w.certImages := by
        refine singleVisible_congr (fun m hm => ?_) sg
        rw [cycleStep_frame h2 m (fun e => dlg e hm),
          cycleStep_frame h1 m (fun e => dpg e hm)]
      exact cycleStep_singleVisible s0 h3

theorem clicks_inv (events : List (List MeshId)) :
    ∀ w : World, CarouselInv w → ∃ w1, clicks w events = .ok w1 ∧ CarouselInv w1 := by
  induction events with
  | nil => exact fun w hw => ⟨w, rfl, hw⟩
  | cons e rest ih =>
    intro w hw
    obtain ⟨w1, h1, hw1⟩ := onMouseClick_inv w e hw
    obtain ⟨w2, h2, hw2⟩ := ih w1 hw1
    exact ⟨w2, by simp [clicks, h1, h2], hw2⟩

/-! ## Lemmas on `addImages` -/

theorem forEachPath_spec (paths : List String) :
    ∀ (index n : Nat) (vis : MeshId → Bool) (group : List MeshId),
      (forEachPath paths index n vis group).1 = n + paths.length ∧
      (forEachPath paths index n vis group).2.2 = group ++ List.range' n paths.length ∧
      (∀ m, m < n → (forEachPath paths index n vis group).2.1 m = vis m) ∧
      (∀ m, n ≤ m → m < n + paths.length →
        (forEachPath paths index n vis group).2.1 m = decide (index + (m - n) = 0)) := by
  induction paths with
  | nil =>
    intro index n vis group
    refine ⟨rfl, by simp [forEachPath], fun _ _ => rfl, fun m h1 h2 => ?_⟩
    simp at h2
    omega
  | cons a rest ih =>
    intro index n vis group
    obtain ⟨i1, i2, i3, i4⟩ := ih (index + 1) (n + 1)
      (if index ≠ 0 then setVisible (setVisible vis n true) n false
        else setVisible vis n true) (group ++ [n])
    simp only [forEachPath]
    refine ⟨?_, ?_, ?_, ?_⟩
    · rw [i1, List.length_cons]; omega
    · rw [i2, List.length_cons, List.range'_succ]; simp
    · intro m hm
      rw [i3 m (by omega)]
      have : m ≠ n := by omega
      split <;> simp [setVisible, this]
    · intro m h1 h2
      rw [List.length_cons] at h2
      by_cases hmn : m = n
      · subst hmn
        rw [i3 m (by omega)]
        by_cases hi : index = 0 <;> simp [setVisible, hi]
      · rw [i4 m (by omega) (by omega)]
        have e1 : ¬ (index + 1 + (m - (n + 1)) = 0) := by omega
        have e2 : ¬ (index + (m - n) = 0) := by omega
        simp [e1, e2]

theorem addFreestanding_spec (count : Nat) :
    ∀ w : World,
      (addFreestanding count w).projectImages = w.projectImages ∧
      (addFreestanding count w).liveProjectImages = w.liveProjectImages ∧
      (addFreestanding count w).certImages = w.certImages ∧
      ∀ m, m < w.nextId → (addFreestanding count w).visible m = w.visible m := by
  induction count with
  | zero => exact fun w => ⟨rfl, rfl, rfl, fun _ _ => rfl⟩
  | succ k ih =>
    intro w
    obtain ⟨h1, h2, h3, h4⟩ := ih
      { w with nextId := w.nextId + 1, visible := setVisible w.visible w.nextId true,
               images := w.images ++ [w.nextId] }
    simp only [addFreestanding]
    refine ⟨h1, h2, h3, fun m hm => ?_⟩
    rw [h4 m (Nat.lt_succ_of_lt hm)]
    have : m ≠ w.nextId := by omega
    simp [setVisible, this]

theorem singleVisible_range' (vis : MeshId → Bool) (n len : Nat) (hlen : 0 < len)
    (h : ∀ m, n ≤ m → m < n + len → vis m = decide (0 + (m - n) = 0)) :
    SingleVisible vis (List.range' n len) := by
  refine ⟨n, ?_, fun m hm => ?_⟩
  · cases len with
    | zero => omega
    | succ k => simp [List.range'_succ]
  · have hb := List.mem_range'_1.mp hm
    have key : ∀ k : Nat, n ≤ k → (0 + (k - n) = 0 ↔ k = n) := fun k hk => by omega
    rw [h m hb.1 hb.2, decide_eq_true_iff]
    exact key m hb.1

theorem addImagesFrom_eq (pp lp cp : List String) (w : World) :
    addImagesFrom pp lp cp w =
      addFreestanding 5
        { w with
          nextId := (forEachPath cp 0
            (forEachPath lp 0 (forEachPath pp 0 w.nextId w.visible w.projectImages).1
              (forEachPath pp 0 w.nextId w.visible w.projectImages).2.1
              w.liveProjectImages).1
            (forEachPath lp 0 (forEachPath pp 0 w.nextId w.visible w.projectImages).1
              (forEachPath pp 0 w.nextId w.visible w.projectImages).2.1
              w.liveProjectImages).2.1 w.certImages).1,
          visible := (forEachPath cp 0
            (forEachPath lp 0 (forEachPath pp 0 w.nextId w.visible w.projectImages).1
              (forEachPath pp 0 w.nextId w.visible w.projectImages).2.1
              w.liveProjectImages).1
            (forEachPath lp 0 (forEachPath pp 0 w.nextId w.visible w.projectImages).1
              (forEachPath pp 0 w.nextId w.visible w.projectImages).2.1
              w.liveProjectImages).2.1 w.certImages).2.1,
          projectImages := (forEachPath pp 0 w.nextId w.visible w.projectImages).2.2,
          liveProjectImages :=
            (forEachPath lp 0 (forEachPath pp 0 w.nextId w.visible w.projectImages).1
              (forEachPath pp 0 w.nextId w.visible w.projectImages).2.1
              w.liveProjectImages).2.2,
          certImages := (forEachPath cp 0
            (forEachPath lp 0 (forEachPath pp 0 w.nextId w.visible w.projectImages).1
              (forEachPath pp 0 w.nextId w.visible w.projectImages).2.1
              w.liveProjectImages).1
            (forEachPath lp 0 (forEachPath pp 0 w.nextId w.visible w.projectImages).1
              (forEachPath pp 0 w.nextId w.visible w.projectImages).2.1
              w.liveProjectImages).2.1 w.certImages).2.2 } := rfl

/-- The arrays built by `addImages` are consecutive runs of fresh references;
among them only the first of each run is visible. -/
theorem addImagesFrom_layout (pp lp cp : List String) :
    (addImagesFrom pp lp cp initWorld).projectImages = List.range' 0 pp.length ∧
    (addImagesFrom pp lp cp initWorld).liveProjectImages =
      List.range' pp.length lp.length ∧
    (addImagesFrom pp lp cp initWorld).certImages =
      List.range' (pp.length + lp.length) cp.length ∧
    ∀ m, m < pp.length + lp.length + cp.length →
      (addImagesFrom pp lp cp initWorld).visible m =
        decide (m = 0 ∨ m = pp.length ∨ m = pp.length + lp.length) := by
  rw [addImagesFrom_eq]
  obtain ⟨a1, a2, _, a4⟩ := forEachPath_spec pp 0 initWorld.nextId initWorld.visible
    initWorld.projectImages
  generalize forEachPath pp 0 initWorld.nextId initWorld.visible
    initWorld.projectImages = r1 at a1 a2 a4 ⊢
  obtain ⟨b1, b2, b3, b4⟩ := forEachPath_spec lp 0 r1.1 r1.2.1 initWorld.liveProjectImages
  generalize forEachPath lp 0 r1.1 r1.2.1 initWorld.liveProjectImages = r2
    at b1 b2 b3 b4 ⊢
  obtain ⟨c1, c2, c3, c4⟩ := forEachPath_spec cp 0 r2.1 r2.2.1 initWorld.certImages
  generalize forEachPath cp 0 r2.1 r2.2.1 initWorld.certImages = r3 at c1 c2 c3 c4 ⊢
  obtain ⟨f1, f2, f3, f4⟩ := addFreestanding_spec 5
    { initWorld with nextId := r3.1, visible := r3.2.1, projectImages := r1.2.2,
                     liveProjectImages := r2.2.2, certImages := r3.2.2 }
  generalize addFreestanding 5
    { initWorld with nextId := r3.1, visible := r3.2.1, projectImages := r1.2.2,
                     liveProjectImages := r2.2.2, certImages := r3.2.2 } = wf
    at f1 f2 f3 f4 ⊢
  have a1 : r1.1 = pp.length := a1.trans (Nat.zero_add _)
  have a2 : r1.2.2 = List.range' 0 pp.length := a2
  have b2 : r2.2.2 = List.range' r1.1 lp.length := b2
  have c2 : r3.2.2 = List.range' r2.1 cp.length := c2
  have f1 : wf.projectImages = r1.2.2 := f1
  have f2 : wf.liveProjectImages = r2.2.2 := f2
  have f3 : wf.certImages = r3.2.2 := f3
  have f4 : ∀ m, m < r3.1 → wf.visible m = r3.2.1 m := f4
  have a4 : ∀ m, 0 ≤ m → m < 0 + pp.length → r1.2.1 m = decide (0 + (m - 0) = 0) := a4
  refine ⟨by rw [f1, a2], by rw [f2, b2, a1], by rw [f3, c2, b1, a1], fun m hm => ?_⟩
  rw [f4 m (by omega)]
  by_cases h1 : m < pp.length
  · rw [c3 m (by omega), b3 m (by omega), a4 m (by omega) (by omega)]
    exact decide_eq_decide.mpr (by omega)
  · by_cases h2 : m < pp.length + lp.length
    · rw [c3 m (by omega), b4 m (by omega) (by omega)]
      exact decide_eq_decide.mpr (by omega)
    · rw [c4 m (by omega) (by omega)]
      exact decide_eq_decide.mpr (by omega)

/-- After `addImages` each array holds fresh, distinct meshes and shows exactly
its first element. -/
theorem addImagesFrom_inv (pp lp cp : List String)
    (hp : pp ≠ []) (hl : lp ≠ []) (hc : cp ≠ []) :
    CarouselInv (addImagesFrom pp lp cp initWorld) := by
  have ep : 0 < pp.length := List.length_pos.mpr hp
  have el : 0 < lp.length := List.length_pos.mpr hl
  have ec : 0 < cp.length := List.length_pos.mpr hc
  obtain ⟨gp, gl, gc, gv⟩ := addImagesFrom_layout pp lp cp
  unfold CarouselInv
  rw [gp, gl, gc]
  have mp : ∀ m, m ∈ List.range' 0 pp.length → m < pp.length := fun m hm => by
    have := List.mem_range'_1.mp hm; omega
  have ml := fun m (hm : m ∈ List.range' pp.length lp.length) => List.mem_range'_1.mp hm
  have mc := fun m (hm : m ∈ List.range' (pp.length + lp.length) cp.length) =>
    List.mem_range'_1.mp hm
  refine ⟨List.nodup_range' _ _, List.nodup_range' _ _, List.nodup_range' _ _,
    ?_, ?_, ?_, ?_, ?_, ?_⟩
  · intro m h1 h2
    have := mp m h1; have := ml m h2; omega
  · intro m h1 h2
    have := mp m h1; have := mc m h2; omega
  · intro m h1 h2
    have := ml m h1; have := mc m h2; omega
  · refine singleVisible_range' _ 0 pp.length ep (fun m h1 h2 => ?_)
    rw [gv m (by omega)]
    exact decide_eq_decide.mpr (by omega)
  · refine singleVisible_range' _ pp.length lp.length el (fun m h1 h2 => ?_)
    rw [gv m (by omega)]
    exact decide_eq_decide.mpr (by omega)
  · refine singleVisible_range' _ (pp.length + lp.length) cp.length ec (fun m h1 h2 => ?_)
    rw [gv m (by omega)]
    exact decide_eq_decide.mpr (by omega)

/-! ## The carousel -/

/-- C1. For the three arrays built by `addImages` from non-empty path lists and
after every finite sequence of click events, the handler has not thrown, each
array has no repeated mesh, and in each array exactly the element at index 0
has `visible = true`. -/
theorem carousel_single_visible_reachable (pp lp cp : List String)
    (hp : pp ≠ []) (hl : lp ≠ []) (hc : cp ≠ []) (events : List (List MeshId)) :
    ∃ w, clicks (addImagesFrom pp lp cp initWorld) events = .ok w ∧
      (w.projectImages.Nodup ∧ SingleVisible w.visible w.projectImages) ∧
      (w.liveProjectImages.Nodup ∧ SingleVisible w.visible w.liveProjectImages) ∧
      (w.certImages.Nodup ∧ SingleVisible w.visible w.certImages) := by
  obtain ⟨w, hw, np, nl, ng, _, _, _, sp, sl, sg⟩ :=
    clicks_inv events _ (addImagesFrom_inv pp lp cp hp hl hc)
  exact ⟨w, hw, ⟨np, sp⟩, ⟨nl, sl⟩, ⟨ng, sg⟩⟩

theorem carousel_single_visible_reachable_witness :
    ∃ w, clicks (addImages initWorld) [[0], [1, 0], [], [7], [4], [2], [10]] = .ok w ∧
      (w.projectImages.Nodup ∧ SingleVisible w.visible w.projectImages) ∧
      (w.liveProjectImages.Nodup ∧ SingleVisible w.visible w.liveProjectImages) ∧
      (w.certImages.Nodup ∧ SingleVisible w.visible w.certImages) :=
  carousel_single_visible_reachable projectImagePaths liveProjectImagePaths
    certImagePaths (by decide) (by decide) (by decide) _

/-- C2, as stated, fails: in `[0, 1, 2]` with all three meshes visible, a click
on the last mesh keeps the order, hides mesh 2 and shows mesh 0, but mesh 1
stays visible, so the array does not show its first element only. -/
theorem cycle_reestablish_counterexample :
    (2 : MeshId) ∈ [0, 1, 2] ∧
    ∃ vis1, cycleStep (fun _ => true) [0, 1, 2] 2 = .ok (vis1, [0, 1, 2]) ∧
      vis1 0 = true ∧ vis1 1 = true ∧ ¬ SingleVisible vis1 [0, 1, 2] := by
  refine ⟨by decide, setVisible (setVisible (fun _ => true) 2 false) 0 true,
    rfl, rfl, rfl, ?_⟩
  rintro ⟨first, hf, hv⟩
  have h0 : (0 : Nat) = first := (hv 0 (by simp)).mp rfl
  have h1 : (1 : Nat) = first := (hv 1 (by simp)).mp rfl
  omega

/-- C2, amended. For every array, every assignment of `visible` flags and every
clicked mesh that is a member, the block returns normally; afterwards the first
element is visible, the clicked mesh is hidden unless it is that first element,
and every other mesh has the flag it had before.  Hence all elements but the
first are hidden afterwards exactly when all members other than the clicked mesh
and the new first element were hidden before, which is the case whenever only
the first element was visible before. -/
theorem cycle_reestablish_amended (vis : MeshId → Bool) (group : List MeshId)
    (x : MeshId) (hx : x ∈ group) :
    ∃ vis1 group1 first,
      cycleStep vis group x = .ok (vis1, group1) ∧
      group1.head? = some first ∧
      vis1 first = true ∧
      (x ≠ first → vis1 x = false) ∧
      (∀ m, m ≠ first → m ≠ x → vis1 m = vis m) ∧
      ((∀ m ∈ group1, m ≠ first → vis1 m = false) ↔
        (∀ m ∈ group, m ≠ first → m ≠ x → vis m = false)) ∧
      (SingleVisible vis group → SingleVisible vis1 group1) := by
  obtain ⟨first, hf, hc⟩ := cycleStep_of_mem vis group x hx
  have hperm := eraseIdx_indexOf_perm group x hx
  refine ⟨_, _, first, hc, hf, by simp [setVisible], fun h => by simp [setVisible, h],
    fun m h1 h2 => by simp [setVisible, h1, h2], ⟨fun h m hm h1 h2 => ?_, fun h m hm h1 => ?_⟩,
    fun hs => cycleStep_singleVisible hs hc⟩
  · have := h m (hperm.mem_iff.mpr hm) h1
    simpa [setVisible, h1, h2] using this
  · by_cases h2 : m = x
    · subst h2
      simp [setVisible, h1]
    · have := h m (hperm.mem_iff.mp hm) h1 h2
      simp [setVisible, h1, h2, this]

theorem cycle_reestablish_amended_witness :
    (0 : MeshId) ∈ [0, 1, 2] ∧
    ∃ vis1, cycleStep (fun m => decide (m = 0)) [0, 1, 2] 0 = .ok (vis1, [1, 2, 0]) ∧
      vis1 1 = true ∧ vis1 0 = false ∧ vis1 2 = false ∧ SingleVisible vis1 [1, 2, 0] := by
  obtain ⟨vis1, group1, first, h1, h2, h3, h4, h5, _, h7⟩ :=
    cycle_reestablish_amended (fun m => decide (m = 0)) [0, 1, 2] 0 (by decide)
  have hg : group1 = [1, 2, 0] := by
    have e : cycleStep (fun m => decide (m = 0)) [0, 1, 2] 0 =
        .ok (setVisible (setVisible (fun m => decide (m = 0)) 0 false) 1 true, [1, 2, 0]) := rfl
    rw [e] at h1
    cases h1
    rfl
  subst hg
  have hf : first = 1 := by simpa using h2.symm
  subst hf
  refine ⟨by decide, vis1, h1, h3, h4 (by decide), ?_, h7 ⟨0, rfl, fun m _ => by simp⟩⟩
  rw [h5 2 (by decide) (by decide)]
  rfl

/-- C3. For every array of distinct meshes and every index `i` in it, a click on
the mesh at index `i` returns normally with the array `group` minus index `i`
followed by that mesh; the new first element is visible and the clicked mesh is
hidden unless it is the new first element.  For `i = 0` the new order is the
array rotated left by one, and for the last index it is the old order. -/
theorem cycle_order (vis : MeshId → Bool) (group : List MeshId) (i : Nat)
    (hi : i < group.length) (hnd : group.Nodup) :
    ∃ vis1 first,
      cycleStep vis group (group.get ⟨i, hi⟩) =
        .ok (vis1, group.eraseIdx i ++ [group.get ⟨i, hi⟩]) ∧
      (group.eraseIdx i ++ [group.get ⟨i, hi⟩]).head? = some first ∧
      vis1 first = true ∧
      (group.get ⟨i, hi⟩ ≠ first → vis1 (group.get ⟨i, hi⟩) = false) ∧
      (i = 0 → group.eraseIdx i ++ [group.get ⟨i, hi⟩] = group.rotate 1) ∧
      (i + 1 = group.length → group.eraseIdx i ++ [group.get ⟨i, hi⟩] = group) := by
  have hidx : group.indexOf (group.get ⟨i, hi⟩) = i := List.indexOf_getElem hnd i hi
  obtain ⟨first, hf, hc⟩ := cycleStep_of_mem vis group (group.get ⟨i, hi⟩)
    (List.get_mem group i hi)
  rw [hidx] at hf hc
  refine ⟨_, first, hc, hf, by simp [setVisible], fun h => ?_, fun h0 => ?_, fun hl => ?_⟩
  · simp only [setVisible, if_neg h, if_true]
  · subst h0
    cases group with
    | nil => simp at hi
    | cons a rest => simp [List.rotate_cons_succ]
  · have hne : group ≠ [] := fun e => by simp [e] at hi
    have e : i = group.length - 1 := by omega
    have hlast : group.get ⟨i, hi⟩ = group.getLast hne := by
      rw [List.getLast_eq_getElem, List.get_eq_getElem]
      simp only [e]
    rw [← List.dropLast_eq_eraseIdx hl, hlast]
    exact List.dropLast_concat_getLast hne

theorem cycle_order_witness :
    ∃ vis1, cycleStep (fun m => decide (m = 10)) [10, 11, 12] 10 = .ok (vis1, [11, 12, 10]) ∧
      vis1 11 = true ∧ vis1 10 = false ∧ [11, 12, 10] = [10, 11, 12].rotate 1 := by
  obtain ⟨vis1, first, h1, h2, h3, h4, h5, _⟩ :=
    cycle_order (fun m => decide (m = 10)) [10, 11, 12] 0 (by decide) (by decide)
  have hf : first = 11 := by simpa using h2.symm
  subst hf
  exact ⟨vis1, h1, h3, h4 (by decide), h5 rfl⟩

/-- C4. When the clicked mesh is not in the array, the block returns normally
and leaves the array and the `visible` flag of every mesh as they were; a click
that hits nothing, or a mesh in none of the three arrays, returns the state
unchanged. -/
theorem non_member_noop (w : World) (vis : MeshId → Bool) (group : List MeshId)
    (x : MeshId) (rest : List MeshId) (hx : x ∉ group) :
    cycleStep vis group x = .ok (vis, group) ∧
    onMouseClick w [] = .ok w ∧
    (x ∉ w.projectImages → x ∉ w.liveProjectImages → x ∉ w.certImages →
      onMouseClick w (x :: rest) = .ok w) := by
  refine ⟨cycleStep_of_not_mem vis group x hx, onMouseClick_nil w, fun hp hl hc => ?_⟩
  simp [onMouseClick, cycleStep_of_not_mem _ _ x hp, cycleStep_of_not_mem _ _ x hl,
    cycleStep_of_not_mem _ _ x hc]

theorem non_member_noop_witness :
    (99 : MeshId) ∉ [0, 1, 2] ∧
    cycleStep (fun m => decide (m = 0)) [0, 1, 2] 99 =
      .ok (fun m => decide (m = 0), [0, 1, 2]) ∧
    onMouseClick (addImages initWorld) [] = .ok (addImages initWorld) ∧
    onMouseClick (addImages initWorld) [99, 4] = .ok (addImages initWorld) :=
  have h := non_member_noop (addImages initWorld) (fun m => decide (m = 0)) [0, 1, 2]
    99 [4] (by decide)
  ⟨by decide, h.1, h.2.1, h.2.2 (by decide) (by decide) (by decide)⟩

/-- C5. When the three arrays share no mesh, a click returns normally and
leaves unchanged (same order, same flag on every member) each array that does
not contain the clicked mesh; at least two of the three arrays are unchanged. -/
theorem per_group_independence (w : World) (intersects : List MeshId)
    (hpl : w.projectImages.Disjoint w.liveProjectImages)
    (hpc : w.projectImages.Disjoint w.certImages)
    (hlc : w.liveProjectImages.Disjoint w.certImages) :
    ∃ w1, onMouseClick w intersects = .ok w1 ∧
      (∀ x, intersects.head? = some x → x ∉ w.projectImages →
        GroupUnchanged w.visible w1.visible w.projectImages w1.projectImages) ∧
      (∀ x, intersects.head? = some x → x ∉ w.liveProjectImages →
        GroupUnchanged w.visible w1.visible w.liveProjectImages w1.liveProjectImages) ∧
      (∀ x, intersects.head? = some x → x ∉ w.certImages →
        GroupUnchanged w.visible w1.visible w.certImages w1.certImages) ∧
      ((GroupUnchanged w.visible w1.visible w.projectImages w1.projectImages ∧
          GroupUnchanged w.visible w1.visible w.liveProjectImages w1.liveProjectImages) ∨
        (GroupUnchanged w.visible w1.visible w.projectImages w1.projectImages ∧
          GroupUnchanged w.visible w1.visible w.certImages w1.certImages) ∨
        (GroupUnchanged w.visible w1.visible w.liveProjectImages w1.liveProjectImages ∧
          GroupUnchanged w.visible w1.visible w.certImages w1.certImages)) := by
  cases intersects with
  | nil =>
    refine ⟨w, onMouseClick_nil w, ?_, ?_, ?_, ?_⟩
    · intro x hx; simp at hx
    · intro x hx; simp at hx
    · intro x hx; simp at hx
    · exact Or.inl ⟨⟨rfl, fun _ _ => rfl⟩, ⟨rfl, fun _ _ => rfl⟩⟩
  | cons c rest =>
    obtain ⟨v1, p, v2, l, v3, g, h1, h2, h3, hc⟩ := onMouseClick_cons w c rest
    refine ⟨_, hc, ?_⟩
    have up : c ∉ w.projectImages → GroupUnchanged w.visible v3 w.projectImages p := by
      intro hx
      rw [cycleStep_of_not_mem _ _ c hx] at h1
      cases h1
      refine ⟨rfl, fun m hm => ?_⟩
      rw [cycleStep_frame h3 m (fun e => hpc hm e),
        cycleStep_frame h2 m (fun e => hpl hm e)]
    have ul : c ∉ w.liveProjectImages →
        GroupUnchanged w.visible v3 w.liveProjectImages l := by
      intro hx
      rw [cycleStep_of_not_mem _ _ c hx] at h2
      cases h2
      refine ⟨rfl, fun m hm => ?_⟩
      rw [cycleStep_frame h3 m (fun e => hlc hm e),
        cycleStep_frame h1 m (fun e => hpl e hm)]
    have ug : c ∉ w.certImages → GroupUnchanged w.visible v3 w.certImages g := by
      intro hx
      rw [cycleStep_of_not_mem _ _ c hx] at h3
      cases h3
      refine ⟨rfl, fun m hm => ?_⟩
      rw [cycleStep_frame h2 m (fun e => hlc e hm),
        cycleStep_frame h1 m (fun e => hpc e hm)]
    refine ⟨fun x hx hn => ?_, fun x hx hn => ?_, fun x hx hn => ?_, ?_⟩
    · simp only [List.head?_cons, Option.some.injEq] at hx
      exact up (hx ▸ hn)
    · simp only [List.head?_cons, Option.some.injEq] at hx
      exact ul (hx ▸ hn)
    · simp only [List.head?_cons, Option.some.injEq] at hx
      exact ug (hx ▸ hn)
    · by_cases hp : c ∈ w.projectImages
      · exact Or.inr (Or.inr ⟨ul (fun e => hpl hp e), ug (fun e => hpc hp e)⟩)
      · by_cases hl : c ∈ w.liveProjectImages
        · exact Or.inr (Or.inl ⟨up hp, ug (fun e => hlc hl e)⟩)
        · exact Or.inl ⟨up hp, ul hl⟩

theorem per_group_independence_witness :
    ∃ w1, onMouseClick (addImages initWorld) [2] = .ok w1 ∧
      GroupUnchanged (addImages initWorld).visible w1.visible
        (addImages initWorld).projectImages w1.projectImages ∧
      GroupUnchanged (addImages initWorld).visible w1.visible
        (addImages initWorld).certImages w1.certImages := by
  obtain ⟨w1, h, hp, _, hc, _⟩ := per_group_independence (addImages initWorld) [2]
    (by show List.Disjoint [0, 1] [2, 3]; simp)
    (by show List.Disjoint [0, 1] [4, 5, 6, 7, 8, 9, 10]; simp)
    (by show List.Disjoint [2, 3] [4, 5, 6, 7, 8, 9, 10]; simp)
  exact ⟨w1, h, hp 2 rfl (by decide), hc 2 rfl (by decide)⟩

/-! ## The distance fade -/

theorem fadeOpacity_eq_spec (d : ℚ) :
    fadeOpacity d = specOpacity fadeStartDistance fadeEndDistance d := by
  unfold fadeOpacity specOpacity fadeStartDistance fadeEndDistance
  by_cases h1 : d ≤ 22
  · have h1n : ¬ (d > 22) := not_lt.mpr h1
    simp only [h1, h1n, if_true, if_false]
  · have h1p : d > 22 := not_le.mp h1
    by_cases h2 : d ≥ 26
    · have hm : min ((d - 22) / (26 - 22)) 1 = 1 :=
        min_eq_right (by rw [le_div_iff₀ (by norm_num)]; linarith)
      simp only [h1, h1p, h2, if_true, if_false, hm, sub_self]
    · have hm : min ((d - 22) / (26 - 22)) 1 = (d - 22) / (26 - 22) :=
        min_eq_left (by rw [div_le_iff₀ (by norm_num)]; linarith [not_le.mp h2])
      simp only [h1, h1p, h2, if_true, if_false, hm]

/-- C6. For every distance `d ≥ 0` the opacity computed in `animate` is the
piecewise function of the specification with `fadeStart = 22`, `fadeEnd = 26`:
1 up to 22, 0 from 26 on, and `1 - (d - 22) / (26 - 22)` in between; its values
at 22, 26 and 24 are 1, 0 and 1/2. -/
theorem fade_formula (d : ℚ) (_hd : 0 ≤ d) :
    fadeOpacity d = specOpacity 22 26 d ∧
    (d ≤ 22 → fadeOpacity d = 1) ∧
    (26 ≤ d → fadeOpacity d = 0) ∧
    (22 < d → d < 26 → fadeOpacity d = 1 - (d - 22) / (26 - 22)) ∧
    fadeOpacity 22 = 1 ∧ fadeOpacity 26 = 0 ∧ fadeOpacity 24 = 1 / 2 := by
  have key : ∀ x : ℚ, fadeOpacity x = specOpacity 22 26 x := fadeOpacity_eq_spec
  refine ⟨key d, fun h => ?_, fun h => ?_, fun h1 h2 => ?_, ?_, ?_, ?_⟩
  · rw [key]; simp [specOpacity, h]
  · have h1 : ¬ d ≤ 22 := by linarith
    rw [key]; simp [specOpacity, h, h1]
  · have h3 : ¬ d ≤ 22 := by linarith
    have h4 : ¬ 26 ≤ d := by linarith
    rw [key]; simp [specOpacity, h3, h4]
  · rw [key]; norm_num [specOpacity]
  · rw [key]; norm_num [specOpacity]
  · rw [key]; norm_num [specOpacity]

theorem fade_formula_witness :
    (0 : ℚ) ≤ 25 ∧ fadeOpacity 25 = specOpacity 22 26 25 ∧ fadeOpacity 25 = 1 / 4 ∧
    fadeOpacity 22 = 1 ∧ fadeOpacity 26 = 0 ∧ fadeOpacity 24 = 1 / 2 :=
  have h := fade_formula 25 (by norm_num)
  ⟨by norm_num, h.1,
    (h.2.2.2.1 (by norm_num) (by norm_num)).trans (by norm_num), h.2.2.2.2⟩

/-- C7. The opacity computed by the fade pass is non-increasing in the
distance: for `0 ≤ d1 ≤ d2` the opacity at `d2` is at most the opacity at `d1`. -/
theorem fade_monotone (d1 d2 : ℚ) (_h0 : 0 ≤ d1) (h : d1 ≤ d2) :
    fadeOpacity d2 ≤ fadeOpacity d1 := by
  rw [fadeOpacity_eq_spec, fadeOpacity_eq_spec]
  unfold specOpacity fadeStartDistance fadeEndDistance
  have e : (26 : ℚ) - 22 = 4 := by norm_num
  rw [e]
  split_ifs <;> linarith

theorem fade_monotone_witness :
    (0 : ℚ) ≤ 23 ∧ (23 : ℚ) ≤ 25 ∧ fadeOpacity 25 ≤ fadeOpacity 23 :=
  ⟨by norm_num, by norm_num, fade_monotone 23 25 (by norm_num) (by norm_num)⟩

/-! ## The wheel listener -/

theorem mathSign_cases (x : ℚ) : mathSign x = 1 ∨ mathSign x = 0 ∨ mathSign x = -1 := by
  unfold mathSign
  split_ifs <;> simp

theorem wheelListener_cameraZ (rig : Rig) (deltaY : ℚ) :
    (wheelListener rig deltaY).cameraZ =
      if rig.cameraZ > -186 ∨ mathSign deltaY < 0 then rig.cameraZ - mathSign deltaY
      else rig.cameraZ := by
  by_cases h : rig.cameraZ > -186 ∨ mathSign deltaY < 0 <;> simp [wheelListener, h]

/-- C9, as stated, fails: from `cameraZ = -185.5`, which is above the boundary,
one forward tick moves the camera to `-186.5`, below the boundary. -/
theorem clamp_boundary_counterexample :
    (-186 : ℚ) ≤ (⟨-371 / 2, 0, 0⟩ : Rig).cameraZ ∧ mathSign 1 = 1 ∧
    (wheelTicks ⟨-371 / 2, 0, 0⟩ [1]).cameraZ = -373 / 2 ∧
    ¬ (-186 ≤ (wheelTicks ⟨-371 / 2, 0, 0⟩ [1]).cameraZ) := by
  have h : (wheelTicks ⟨-371 / 2, 0, 0⟩ [1]).cameraZ = -373 / 2 := by
    simp only [wheelTicks]
    rw [wheelListener_cameraZ]
    norm_num [mathSign]
  refine ⟨by norm_num, by norm_num [mathSign], h, ?_⟩
  rw [h]
  norm_num

theorem wheelListener_whole (rig : Rig) (deltaY : ℚ) (n : ℕ)
    (h : rig.cameraZ = -186 + n) :
    ∃ k : ℕ, (wheelListener rig deltaY).cameraZ = -186 + k := by
  rw [wheelListener_cameraZ]
  rcases mathSign_cases deltaY with hs | hs | hs
  · cases n with
    | zero =>
      have h1 : ¬ (rig.cameraZ > -186 ∨ mathSign deltaY < 0) := by
        rw [hs, h]; push_neg; exact ⟨by simp, by norm_num⟩
      exact ⟨0, by rw [if_neg h1, h]⟩
    | succ k =>
      have h1 : rig.cameraZ > -186 ∨ mathSign deltaY < 0 := by
        left; rw [h]; push_cast; linarith [(Nat.cast_nonneg k : (0 : ℚ) ≤ k)]
      exact ⟨k, by rw [if_pos h1, hs, h]; push_cast; ring⟩
  · refine ⟨n, ?_⟩
    split_ifs <;> simp [hs, h]
  · have h1 : rig.cameraZ > -186 ∨ mathSign deltaY < 0 := Or.inr (by rw [hs]; norm_num)
    exact ⟨n + 1, by rw [if_pos h1, hs, h]; push_cast; ring⟩

theorem wheelTicks_whole (deltas : List ℚ) :
    ∀ (rig : Rig) (n : ℕ), rig.cameraZ = -186 + n →
      ∃ k : ℕ, (wheelTicks rig deltas).cameraZ = -186 + k := by
  induction deltas with
  | nil => exact fun rig n h => ⟨n, h⟩
  | cons d rest ih =>
    intro rig n h
    obtain ⟨k, hk⟩ := wheelListener_whole rig d n h
    exact ih _ k hk

/-- C9, amended. For every starting `cameraZ` a whole number of units above the
boundary (`cameraZ = -186 + n` for a natural number `n`) and every finite
sequence of wheel events, the camera z-position after the sequence is still
`≥ -186`. -/
theorem clamp_boundary_amended (rig : Rig) (n : ℕ) (h : rig.cameraZ = -186 + n)
    (deltas : List ℚ) : -186 ≤ (wheelTicks rig deltas).cameraZ := by
  obtain ⟨k, hk⟩ := wheelTicks_whole deltas rig n h
  rw [hk]
  linarith [(Nat.cast_nonneg k : (0 : ℚ) ≤ k)]

theorem clamp_boundary_amended_witness :
    (⟨8, 18, -3 / 5⟩ : Rig).cameraZ = -186 + (194 : ℕ) ∧
    -186 ≤ (wheelTicks ⟨8, 18, -3 / 5⟩ [120, 120, -120, 0, 120]).cameraZ :=
  ⟨by norm_num, clamp_boundary_amended ⟨8, 18, -3 / 5⟩ 194 (by norm_num) _⟩

theorem wheelListener_above (rig : Rig) (deltaY : ℚ) (h : -187 < rig.cameraZ) :
    -187 < (wheelListener rig deltaY).cameraZ := by
  rw [wheelListener_cameraZ]
  rcases mathSign_cases deltaY with hs | hs | hs
  · by_cases hz : rig.cameraZ > -186
    · rw [if_pos (Or.inl hz), hs]; linarith
    · have h1 : ¬ (rig.cameraZ > -186 ∨ mathSign deltaY < 0) := by
        rw [hs]; push_neg; exact ⟨not_lt.mp hz, by norm_num⟩
      rw [if_neg h1]; exact h
  · split_ifs <;> simp [hs, h]
  · have h1 : rig.cameraZ > -186 ∨ mathSign deltaY < 0 := Or.inr (by rw [hs]; norm_num)
    rw [if_pos h1, hs]; linarith

theorem wheelTicks_above (deltas : List ℚ) :
    ∀ rig : Rig, -187 < rig.cameraZ → -187 < (wheelTicks rig deltas).cameraZ := by
  induction deltas with
  | nil => exact fun rig h => h
  | cons d rest ih => exact fun rig h => ih _ (wheelListener_above rig d h)

/-- C10. For every starting `cameraZ ≥ -186` and every finite sequence of wheel
events, the camera z-position after the sequence is strictly greater than
`-187`. -/
theorem clamp_overshoot_bounded (rig : Rig) (h : -186 ≤ rig.cameraZ)
    (deltas : List ℚ) : -187 < (wheelTicks rig deltas).cameraZ :=
  wheelTicks_above deltas rig (by linarith)

theorem clamp_overshoot_bounded_witness :
    -186 ≤ (⟨-371 / 2, 0, 0⟩ : Rig).cameraZ ∧
    -187 < (wheelTicks ⟨-371 / 2, 0, 0⟩ [1, 1, 1]).cameraZ :=
  ⟨by norm_num, clamp_overshoot_bounded ⟨-371 / 2, 0, 0⟩ (by norm_num) _⟩

theorem wheelListener_droneZ (rig : Rig) (deltaY : ℚ) :
    (wheelListener rig deltaY).droneZ =
      if rig.cameraZ > -186 ∨ mathSign deltaY < 0 then rig.droneZ - mathSign deltaY
      else rig.droneZ := by
  by_cases h : rig.cameraZ > -186 ∨ mathSign deltaY < 0 <;> simp [wheelListener, h]

theorem wheelListener_offset (rig : Rig) (deltaY : ℚ) :
    (wheelListener rig deltaY).cameraZ - (wheelListener rig deltaY).droneZ =
      rig.cameraZ - rig.droneZ := by
  rw [wheelListener_cameraZ, wheelListener_droneZ]
  split_ifs <;> ring

theorem wheelTicks_offset (deltas : List ℚ) :
    ∀ rig : Rig, (wheelTicks rig deltas).cameraZ - (wheelTicks rig deltas).droneZ =
      rig.cameraZ - rig.droneZ := by
  induction deltas with
  | nil => exact fun rig => rfl
  | cons d rest ih =>
    intro rig
    simp only [wheelTicks]
    rw [ih, wheelListener_offset]

/-! ## Binary64 rounding -/

theorem roundHalfEven_intCast (m : ℤ) : roundHalfEven (m : ℚ) = m := by
  simp [roundHalfEven]

theorem roundF64_of_quot (x : ℚ) (m : ℤ)
    (h : x / 2 ^ (Int.log 2 |x| - 52) = m) : roundF64 x = x := by
  unfold roundF64
  split_ifs with h0
  · exact h0.symm
  · simp only [h, roundHalfEven_intCast]
    rw [← h]
    have : (2 : ℚ) ^ (Int.log 2 |x| - 52) ≠ 0 := zpow_ne_zero _ (by norm_num)
    field_simp

theorem log_abs_intCast (n : ℤ) (hn : n ≠ 0) (h : |n| ≤ 2 ^ 53) :
    0 ≤ Int.log 2 |(n : ℚ)| ∧ Int.log 2 |(n : ℚ)| ≤ 53 := by
  have hpos : (0 : ℚ) < |(n : ℚ)| := abs_pos.mpr (by exact_mod_cast hn)
  have h1 : (1 : ℚ) ≤ |(n : ℚ)| := by
    have : (1 : ℤ) ≤ |n| := Int.one_le_abs hn
    exact_mod_cast this
  have h2 : |(n : ℚ)| ≤ 2 ^ 53 := by exact_mod_cast h
  constructor
  · exact (Int.zpow_le_iff_le_log (b := 2) (by norm_num) hpos).mp (by simpa using h1)
  · have : Int.log 2 |(n : ℚ)| < 54 :=
      (Int.lt_zpow_iff_log_lt (b := 2) (by norm_num) hpos).mp
        (lt_of_le_of_lt h2 (by norm_num))
    omega

/-- Every integer of magnitude at most `2 ^ 53` is a binary64 number. -/
theorem roundF64_intCast (n : ℤ) (h : |n| ≤ 2 ^ 53) : roundF64 (n : ℚ) = n := by
  by_cases hn : n = 0
  · simp [hn, roundF64]
  obtain ⟨e0, e53⟩ := log_abs_intCast n hn h
  have hpos : (0 : ℚ) < |(n : ℚ)| := abs_pos.mpr (by exact_mod_cast hn)
  by_cases he : Int.log 2 |(n : ℚ)| ≤ 52
  · obtain ⟨k, hk⟩ : ∃ k : ℕ, Int.log 2 |(n : ℚ)| - 52 = -(k : ℤ) :=
      ⟨(52 - Int.log 2 |(n : ℚ)|).toNat, by omega⟩
    refine roundF64_of_quot _ (n * 2 ^ k) ?_
    rw [hk, zpow_neg, zpow_natCast]
    push_cast
    field_simp
  · have he : Int.log 2 |(n : ℚ)| = 53 := by omega
    have hle : (2 : ℚ) ^ (53 : ℤ) ≤ |(n : ℚ)| := by
      have := Int.zpow_log_le_self (b := 2) (by norm_num) hpos
      rw [he] at this
      exact_mod_cast this
    have habs : |n| = 2 ^ 53 := by
      have : (2 : ℤ) ^ 53 ≤ |n| := by
        have h1 : ((2 ^ 53 : ℤ) : ℚ) ≤ ((|n| : ℤ) : ℚ) := by
          push_cast
          exact_mod_cast hle
        exact_mod_cast h1
      omega
    refine roundF64_of_quot _ (n / 2) ?_
    rw [he]
    rcases abs_eq (by norm_num : (0 : ℤ) ≤ 2 ^ 53) |>.mp habs with e | e
    · rw [e]; norm_num
    · rw [e]; norm_num

/-- The exact sum `2 ^ 53 + 1` is not a binary64 number: it lies halfway between
`2 ^ 53` and `2 ^ 53 + 2` and rounds to the even one. -/
theorem roundF64_two_pow_53_add_one :
    roundF64 9007199254740993 = 9007199254740992 := by
  have hlog : Int.log 2 |(9007199254740993 : ℚ)| = 53 := by
    have hpos : (0 : ℚ) < |(9007199254740993 : ℚ)| := by norm_num
    apply le_antisymm
    · have : Int.log 2 |(9007199254740993 : ℚ)| < 54 :=
        (Int.lt_zpow_iff_log_lt (b := 2) (by norm_num) hpos).mp (by norm_num)
      omega
    · exact (Int.zpow_le_iff_le_log (b := 2) (by norm_num) hpos).mp (by norm_num)
  have hf : ⌊(9007199254740993 / 2 : ℚ)⌋ = 4503599627370496 :=
    Int.floor_eq_iff.mpr ⟨by norm_num, by norm_num⟩
  unfold roundF64
  rw [if_neg (by norm_num), hlog]
  have hq : (9007199254740993 : ℚ) / 2 ^ ((53 : ℤ) - 52) = 9007199254740993 / 2 := by
    norm_num
  simp only [hq, roundHalfEven, hf]
  norm_num

/-! ## The wheel listener in binary64 arithmetic -/

theorem mathSign_int (x : ℚ) : ∃ k : ℤ, mathSign x = k ∧ |k| ≤ 1 := by
  rcases mathSign_cases x with h | h | h
  · exact ⟨1, by simp [h], by norm_num⟩
  · exact ⟨0, by simp [h], by norm_num⟩
  · exact ⟨-1, by simp [h], by norm_num⟩

theorem wheelListenerF64_cameraZ (s : RigF64) (deltaY : ℚ) :
    (wheelListenerF64 s deltaY).1.cameraZ =
      if s.cameraZ > -186 ∨ mathSign deltaY < 0 then roundF64 (s.cameraZ - mathSign deltaY)
      else s.cameraZ := by
  unfold wheelListenerF64
  by_cases h : s.cameraZ > -186 ∨ mathSign deltaY < 0 <;>
    cases hm : s.mainDrone <;> simp [h, hm]

/-- C8, as stated, fails: at `camera.position.z = 2 ^ 53`, a binary64 number, a
backward tick (scroll direction `-1`) computes `2 ^ 53 + 1`, which rounds back
to `2 ^ 53`, so `cameraZ` is unchanged. -/
theorem clamp_tick_counterexample :
    roundF64 9007199254740992 = 9007199254740992 ∧ mathSign (-120) = -1 ∧
    (wheelListenerF64 ⟨9007199254740992, some ⟨0, 0⟩⟩ (-120)).1.cameraZ =
      9007199254740992 := by
  have hs : mathSign (-120) = -1 := by norm_num [mathSign]
  refine ⟨by simpa using roundF64_intCast 9007199254740992 (by norm_num), hs, ?_⟩
  rw [wheelListenerF64_cameraZ, hs, if_pos (Or.inr (by norm_num))]
  have e : (9007199254740992 : ℚ) - -1 = 9007199254740993 := by norm_num
  simp only [e]
  exact roundF64_two_pow_53_add_one

/-- C8, amended. With `cameraZ ≤ -186` a forward tick (scroll direction `+1`)
leaves `cameraZ` unchanged.  A backward tick (scroll direction `-1`) sets
`cameraZ` to the binary64 number nearest `cameraZ + 1`, so it increases
`cameraZ` by exactly 1 exactly when `cameraZ + 1` is a binary64 number; this is
the case for every integer `cameraZ` with `-2 ^ 53 ≤ cameraZ < 2 ^ 53`, and
there the tick changes `cameraZ`. -/
theorem clamp_tick_amended (s : RigF64) (deltaY : ℚ) :
    (mathSign deltaY = 1 → s.cameraZ ≤ -186 →
      (wheelListenerF64 s deltaY).1.cameraZ = s.cameraZ) ∧
    (mathSign deltaY = -1 →
      ((wheelListenerF64 s deltaY).1.cameraZ = s.cameraZ + 1 ↔
        roundF64 (s.cameraZ + 1) = s.cameraZ + 1)) ∧
    (mathSign deltaY = -1 → ∀ n : ℤ, s.cameraZ = n → -2 ^ 53 ≤ n → n < 2 ^ 53 →
      (wheelListenerF64 s deltaY).1.cameraZ = s.cameraZ + 1 ∧
      (wheelListenerF64 s deltaY).1.cameraZ ≠ s.cameraZ) := by
  rw [wheelListenerF64_cameraZ]
  refine ⟨fun hs hz => ?_, fun hs => ?_, fun hs n hn h1 h2 => ?_⟩
  · have h1 : ¬ (s.cameraZ > -186 ∨ mathSign deltaY < 0) := by
      rw [hs]; push_neg; exact ⟨hz, by norm_num⟩
    rw [if_neg h1]
  · have h1 : s.cameraZ > -186 ∨ mathSign deltaY < 0 := Or.inr (by rw [hs]; norm_num)
    rw [if_pos h1, hs, sub_neg_eq_add]
  · have h3 : s.cameraZ > -186 ∨ mathSign deltaY < 0 := Or.inr (by rw [hs]; norm_num)
    have h4 : |n + 1| ≤ 2 ^ 53 := abs_le.mpr ⟨by omega, by omega⟩
    have h5 : roundF64 (s.cameraZ + 1) = s.cameraZ + 1 := by
      have := roundF64_intCast (n + 1) h4
      rw [hn]
      exact_mod_cast this
    rw [if_pos h3, hs, sub_neg_eq_add, h5]
    exact ⟨rfl, by linarith⟩

theorem clamp_tick_amended_witness :
    (wheelListenerF64 ⟨-186, some ⟨-176, 0⟩⟩ 120).1.cameraZ = -186 ∧
    (wheelListenerF64 ⟨-186, some ⟨-176, 0⟩⟩ (-120)).1.cameraZ = -186 + 1 ∧
    (wheelListenerF64 ⟨-186, some ⟨-176, 0⟩⟩ (-120)).1.cameraZ ≠ -186 :=
  ⟨(clamp_tick_amended ⟨-186, some ⟨-176, 0⟩⟩ 120).1 (by norm_num [mathSign]) (le_refl _),
   (clamp_tick_amended ⟨-186, some ⟨-176, 0⟩⟩ (-120)).2.2 (by norm_num [mathSign])
     (-186) (by norm_num) (by norm_num) (by norm_num)⟩

theorem wheelListenerF64_loaded (s : RigF64) (drone : Drone) (deltaY : ℚ)
    (hm : s.mainDrone = some drone) :
    wheelListenerF64 s deltaY =
      (if s.cameraZ > -186 ∨ mathSign deltaY < 0 then
        { cameraZ := roundF64 (s.cameraZ - mathSign deltaY),
          mainDrone := some
            { z := roundF64 (drone.z - mathSign deltaY),
              rotationTarget :=
                if mathSign deltaY > 0 then roundF64 (-0.6) else roundF64 0.6 } }
      else
        { cameraZ := s.cameraZ,
          mainDrone := some
            { z := drone.z,
              rotationTarget :=
                if mathSign deltaY > 0 then roundF64 (-0.6) else roundF64 0.6 } },
      none) := by
  unfold wheelListenerF64
  by_cases h : s.cameraZ > -186 ∨ mathSign deltaY < 0 <;> simp [h, hm]

/-- One tick from integer positions with a loaded drone: no exception, both
positions stay integers, move by the same amount and by at most one unit. -/
theorem wheelListenerF64_grid (s : RigF64) (drone : Drone) (c d : ℤ) (deltaY : ℚ)
    (hm : s.mainDrone = some drone) (hc : s.cameraZ = c) (hd : drone.z = d)
    (bc : |c| + 1 ≤ 2 ^ 53) (bd : |d| + 1 ≤ 2 ^ 53) :
    ∃ (drone1 : Drone) (c1 d1 : ℤ),
      (wheelListenerF64 s deltaY).2 = none ∧
      (wheelListenerF64 s deltaY).1.mainDrone = some drone1 ∧
      (wheelListenerF64 s deltaY).1.cameraZ = c1 ∧ drone1.z = d1 ∧
      |c1| ≤ |c| + 1 ∧ |d1| ≤ |d| + 1 ∧ c1 - d1 = c - d ∧
      ((s.cameraZ > -186 ∨ mathSign deltaY < 0) →
        (wheelListenerF64 s deltaY).1.cameraZ = s.cameraZ - mathSign deltaY ∧
        drone1.z = drone.z - mathSign deltaY) ∧
      (¬ (s.cameraZ > -186 ∨ mathSign deltaY < 0) →
        (wheelListenerF64 s deltaY).1.cameraZ = s.cameraZ ∧ drone1.z = drone.z) := by
  obtain ⟨k, hk, hk1⟩ := mathSign_int deltaY
  have kb := abs_le.mp hk1
  have ac := abs_le.mp (le_of_lt (Int.lt_of_add_one_le bc))
  have ad := abs_le.mp (le_of_lt (Int.lt_of_add_one_le bd))
  have gc := abs_le.mp (le_refl |c|)
  have gd := abs_le.mp (le_refl |d|)
  rw [wheelListenerF64_loaded s drone deltaY hm]
  by_cases h : s.cameraZ > -186 ∨ mathSign deltaY < 0
  · have ec : roundF64 (s.cameraZ - mathSign deltaY) = ((c - k : ℤ) : ℚ) := by
      rw [hc, hk, ← Int.cast_sub]
      exact roundF64_intCast _ (abs_le.mpr ⟨by omega, by omega⟩)
    have ed : roundF64 (drone.z - mathSign deltaY) = ((d - k : ℤ) : ℚ) := by
      rw [hd, hk, ← Int.cast_sub]
      exact roundF64_intCast _ (abs_le.mpr ⟨by omega, by omega⟩)
    rw [if_pos h]
    refine ⟨_, c - k, d - k, rfl, rfl, ec, ed, abs_le.mpr ⟨by omega, by omega⟩,
      abs_le.mpr ⟨by omega, by omega⟩, by omega, fun _ => ⟨?_, ?_⟩, fun h1 => absurd h h1⟩
    · show roundF64 (s.cameraZ - mathSign deltaY) = s.cameraZ - mathSign deltaY
      rw [ec, hc, hk, Int.cast_sub]
    · show roundF64 (drone.z - mathSign deltaY) = drone.z - mathSign deltaY
      rw [ed, hd, hk, Int.cast_sub]
  · rw [if_neg h]
    exact ⟨_, c, d, rfl, rfl, hc, hd, by omega, by omega, rfl, fun h1 => absurd h1 h,
      fun _ => ⟨rfl, rfl⟩⟩

theorem wheelTicksF64_grid (deltas : List ℚ) :
    ∀ (s : RigF64) (drone : Drone) (c d : ℤ),
      s.mainDrone = some drone → s.cameraZ = c → drone.z = d →
      |c| + deltas.length ≤ 2 ^ 53 → |d| + deltas.length ≤ 2 ^ 53 →
      ∃ droneN : Drone, (wheelTicksF64 s deltas).mainDrone = some droneN ∧
        (wheelTicksF64 s deltas).cameraZ - droneN.z = s.cameraZ - drone.z := by
  induction deltas with
  | nil => exact fun s drone c d hm _ _ _ _ => ⟨drone, hm, rfl⟩
  | cons deltaY rest ih =>
    intro s drone c d hm hc hd bc bd
    simp only [List.length_cons, Nat.cast_add, Nat.cast_one] at bc bd
    obtain ⟨drone1, c1, d1, _, hm1, hc1, hd1, b1, b2, e, _, _⟩ :=
      wheelListenerF64_grid s drone c d deltaY hm hc hd (by omega) (by omega)
    obtain ⟨droneN, hmN, hN⟩ := ih _ drone1 c1 d1 hm1 hc1 hd1 (by omega) (by omega)
    refine ⟨droneN, hmN, ?_⟩
    simp only [wheelTicksF64]
    rw [hN, hc1, hd1, hc, hd]
    exact_mod_cast e

/-- On integer positions of magnitude below `2 ^ 53` with the drone loaded, the
listener as it executes moves the camera and the drone exactly as the listener
read over exact arithmetic does. -/
theorem wheelListenerF64_exact (s : RigF64) (drone : Drone) (c d : ℤ) (deltaY : ℚ)
    (hm : s.mainDrone = some drone) (hc : s.cameraZ = c) (hd : drone.z = d)
    (bc : |c| + 1 ≤ 2 ^ 53) (bd : |d| + 1 ≤ 2 ^ 53) :
    ∃ drone1 : Drone,
      (wheelListenerF64 s deltaY).1.mainDrone = some drone1 ∧
      (wheelListenerF64 s deltaY).1.cameraZ =
        (wheelListener ⟨s.cameraZ, drone.z, drone.rotationTarget⟩ deltaY).cameraZ ∧
      drone1.z = (wheelListener ⟨s.cameraZ, drone.z, drone.rotationTarget⟩ deltaY).droneZ := by
  obtain ⟨drone1, c1, d1, _, hm1, _, _, _, _, _, hp, hq⟩ :=
    wheelListenerF64_grid s drone c d deltaY hm hc hd bc bd
  refine ⟨drone1, hm1, ?_, ?_⟩
  · rw [wheelListener_cameraZ]
    by_cases h : s.cameraZ > -186 ∨ mathSign deltaY < 0
    · rw [if_pos h]; exact (hp h).1
    · rw [if_neg h]; exact (hq h).1
  · rw [wheelListener_droneZ]
    by_cases h : s.cameraZ > -186 ∨ mathSign deltaY < 0
    · rw [if_pos h]; exact (hp h).2
    · rw [if_neg h]; exact (hq h).2

/-- While `mainDrone` is still undefined every wheel event ends in a
`TypeError`; when the clamp condition passes the camera has already moved. -/
theorem wheelListenerF64_undefined (cameraZ deltaY : ℚ) :
    (wheelListenerF64 ⟨cameraZ, none⟩ deltaY).2 = some "TypeError: mainDrone is undefined" ∧
    (wheelListenerF64 ⟨cameraZ, none⟩ deltaY).1.mainDrone = none ∧
    (wheelListenerF64 ⟨0, none⟩ 120).1.cameraZ = -1 := by
  refine ⟨?_, ?_, ?_⟩
  · unfold wheelListenerF64
    by_cases h : cameraZ > -186 ∨ mathSign deltaY < 0 <;> simp [h]
  · unfold wheelListenerF64
    by_cases h : cameraZ > -186 ∨ mathSign deltaY < 0 <;> simp [h]
  · have hs : mathSign 120 = 1 := by norm_num [mathSign]
    rw [wheelListenerF64_cameraZ, if_pos (Or.inl (by norm_num)), hs]
    have := roundF64_intCast (-1) (by norm_num)
    have e : (0 : ℚ) - 1 = ((-1 : ℤ) : ℚ) := by norm_num
    rw [e, this]
    norm_num

/-- C11, as stated, fails: at `cameraZ = 2 ^ 53` and `droneZ = 0`, with the drone
loaded, a backward tick leaves the camera where it is (`2 ^ 53 + 1` rounds back
to `2 ^ 53`) and moves the drone from 0 to 1. -/
theorem camera_drone_coupling_counterexample :
    mathSign (-120) = -1 ∧
    (wheelListenerF64 ⟨9007199254740992, some ⟨0, 0⟩⟩ (-120)).1.cameraZ
      - 9007199254740992 = 0 ∧
    ∃ drone1, (wheelListenerF64 ⟨9007199254740992, some ⟨0, 0⟩⟩ (-120)).1.mainDrone
        = some drone1 ∧ drone1.z - 0 = 1 := by
  have hs : mathSign (-120) = -1 := by norm_num [mathSign]
  have h : (9007199254740992 : ℚ) > -186 ∨ mathSign (-120) < 0 := Or.inl (by norm_num)
  have e1 : roundF64 ((0 : ℚ) - mathSign (-120)) = 1 := by
    rw [hs]
    have := roundF64_intCast 1 (by norm_num)
    simpa using this
  refine ⟨hs, ?_, ?_⟩
  · rw [wheelListenerF64_cameraZ, if_pos h, hs]
    have e : (9007199254740992 : ℚ) - -1 = 9007199254740993 := by norm_num
    rw [e, roundF64_two_pow_53_add_one]
    norm_num
  · rw [wheelListenerF64_loaded _ ⟨0, 0⟩ _ rfl, if_pos h]
    refine ⟨_, rfl, ?_⟩
    show roundF64 ((0 : ℚ) - mathSign (-120)) - 0 = 1
    rw [e1]
    norm_num

/-- C11, amended. For every rig state with the drone loaded whose `cameraZ` and
`droneZ` are integers, and every sequence of `n` wheel events with
`|cameraZ| + n ≤ 2 ^ 53` and `|droneZ| + n ≤ 2 ^ 53`: a tick raises no exception
and changes the drone's z-position by the same amount as the camera's (both
decrease by the scroll direction when the clamp condition passes, both are
unchanged when it does not), and `cameraZ - droneZ` is the same after the whole
sequence. -/
theorem camera_drone_coupling_amended (s : RigF64) (drone : Drone) (c d : ℤ)
    (deltaY : ℚ) (deltas : List ℚ)
    (hm : s.mainDrone = some drone) (hc : s.cameraZ = c) (hd : drone.z = d)
    (bc : |c| + (deltaY :: deltas).length ≤ 2 ^ 53)
    (bd : |d| + (deltaY :: deltas).length ≤ 2 ^ 53) :
    (mathSign deltaY = 1 ∨ mathSign deltaY = 0 ∨ mathSign deltaY = -1) ∧
    (∃ drone1 : Drone,
      (wheelListenerF64 s deltaY).2 = none ∧
      (wheelListenerF64 s deltaY).1.mainDrone = some drone1 ∧
      drone1.z - drone.z = (wheelListenerF64 s deltaY).1.cameraZ - s.cameraZ ∧
      ((s.cameraZ > -186 ∨ mathSign deltaY < 0) →
        (wheelListenerF64 s deltaY).1.cameraZ = s.cameraZ - mathSign deltaY ∧
        drone1.z = drone.z - mathSign deltaY) ∧
      (¬ (s.cameraZ > -186 ∨ mathSign deltaY < 0) →
        (wheelListenerF64 s deltaY).1.cameraZ = s.cameraZ ∧ drone1.z = drone.z)) ∧
    ∃ droneN : Drone,
      (wheelTicksF64 s (deltaY :: deltas)).mainDrone = some droneN ∧
      (wheelTicksF64 s (deltaY :: deltas)).cameraZ - droneN.z = s.cameraZ - drone.z := by
  have bc1 : |c| + 1 ≤ 2 ^ 53 := by
    simp only [List.length_cons, Nat.cast_add, Nat.cast_one] at bc
    omega
  have bd1 : |d| + 1 ≤ 2 ^ 53 := by
    simp only [List.length_cons, Nat.cast_add, Nat.cast_one] at bd
    omega
  obtain ⟨drone1, c1, d1, hn, hm1, hc1, hd1, _, _, e, hp, hq⟩ :=
    wheelListenerF64_grid s drone c d deltaY hm hc hd bc1 bd1
  refine ⟨mathSign_cases deltaY, ⟨drone1, hn, hm1, ?_, hp, hq⟩,
    wheelTicksF64_grid (deltaY :: deltas) s drone c d hm hc hd bc bd⟩
  rw [hc1, hd1, hc, hd]
  have e1 : ((c1 - d1 : ℤ) : ℚ) = ((c - d : ℤ) : ℚ) := by rw [e]
  push_cast at e1
  linarith

theorem camera_drone_coupling_amended_witness :
    ∃ droneN : Drone,
      (wheelTicksF64 ⟨8, some ⟨18, 0⟩⟩ [120, 120, -120, 0]).mainDrone = some droneN ∧
      (wheelTicksF64 ⟨8, some ⟨18, 0⟩⟩ [120, 120, -120, 0]).cameraZ - droneN.z = 8 - 18 :=
  (camera_drone_coupling_amended ⟨8, some ⟨18, 0⟩⟩ ⟨18, 0⟩ 8 18 120 [120, -120, 0]
    rfl (by norm_num) (by norm_num) (by norm_num) (by norm_num)).2.2

/-! ## The right-button zoom -/

theorem tweenFrame_recorded (s : ZoomState) (progress : ℚ) :
    (tweenFrame s progress).originalFov = s.originalFov ∧
    (tweenFrame s progress).fovTarget = s.fovTarget := by
  cases s with
  | mk f o g => cases g <;> exact ⟨rfl, rfl⟩

theorem tweenFrames_recorded (frames : List ℚ) :
    ∀ s : ZoomState, (tweenFrames s frames).originalFov = s.originalFov ∧
      (tweenFrames s frames).fovTarget = s.fovTarget := by
  induction frames with
  | nil => exact fun s => ⟨rfl, rfl⟩
  | cons p rest ih =>
    intro s
    simp only [tweenFrames]
    rw [(ih _).1, (ih _).2]
    exact tweenFrame_recorded s p

/-- C12. The listeners break the claim: after a first right-button press at
field of view 75 (recorded 75, target 55) and the end of the zoom animation, a
second press before any release is not a no-op: it records 55 in `originalFov`
and retargets to 35, and the following release animates back to 55, not to the
field of view 75 that was current before the first press. -/
theorem zoom_in_repeat_counterexample :
    (tweenFrames (mouseDownListener initZoom 2) [1]).originalFov = some 75 ∧
    (tweenFrames (mouseDownListener initZoom 2) [1]).fovTarget = some 55 ∧
    (mouseDownListener (tweenFrames (mouseDownListener initZoom 2) [1]) 2).originalFov
      = some 55 ∧
    (mouseDownListener (tweenFrames (mouseDownListener initZoom 2) [1]) 2).fovTarget
      = some 35 ∧
    (mouseUpListener
      (mouseDownListener (tweenFrames (mouseDownListener initZoom 2) [1]) 2) 2).fovTarget
      = some 55 ∧
    mouseDownListener (tweenFrames (mouseDownListener initZoom 2) [1]) 2 ≠
      tweenFrames (mouseDownListener initZoom 2) [1] := by
  have e : tweenFrames (mouseDownListener initZoom 2) [1] =
      { fov := 55, originalFov := some 75, fovTarget := some 55 } := by
    simp only [tweenFrames, tweenFrame, mouseDownListener, initZoom, if_true]
    norm_num
  rw [e]
  refine ⟨rfl, rfl, ?_, ?_, ?_, ?_⟩
  · simp [mouseDownListener]
  · simp only [mouseDownListener, if_true]; norm_num
  · simp [mouseUpListener, mouseDownListener]
  · intro h
    have h1 := congrArg ZoomState.originalFov h
    simp only [mouseDownListener, if_true, Option.some.injEq] at h1
    norm_num at h1

/-- What a right-button press does after any number of animation frames: it
records the field of view current at that moment and targets 20 below it; it
leaves the state as it is exactly when the field of view still has the value it
had at the previous press. -/
theorem mouseDownListener_after_frames (s : ZoomState) (frames : List ℚ) :
    mouseDownListener (mouseDownListener s 2) 2 = mouseDownListener s 2 ∧
    (mouseDownListener (tweenFrames (mouseDownListener s 2) frames) 2).originalFov =
      some (tweenFrames (mouseDownListener s 2) frames).fov ∧
    (mouseDownListener (tweenFrames (mouseDownListener s 2) frames) 2).fovTarget =
      some ((tweenFrames (mouseDownListener s 2) frames).fov - 20) ∧
    (mouseUpListener
      (mouseDownListener (tweenFrames (mouseDownListener s 2) frames) 2) 2).fovTarget =
      some (tweenFrames (mouseDownListener s 2) frames).fov ∧
    (mouseDownListener (tweenFrames (mouseDownListener s 2) frames) 2 =
        tweenFrames (mouseDownListener s 2) frames ↔
      (tweenFrames (mouseDownListener s 2) frames).fov = s.fov) := by
  obtain ⟨h1, h2⟩ := tweenFrames_recorded frames (mouseDownListener s 2)
  have h1 : (tweenFrames (mouseDownListener s 2) frames).originalFov = some s.fov := h1
  have h2 : (tweenFrames (mouseDownListener s 2) frames).fovTarget = some (s.fov - 20) := h2
  generalize tweenFrames (mouseDownListener s 2) frames = t at h1 h2
  refine ⟨rfl, rfl, rfl, rfl, ⟨fun h => ?_, fun h => ?_⟩⟩
  · have e := congrArg ZoomState.originalFov h
    rw [h1] at e
    simpa [mouseDownListener] using e
  · cases t with
    | mk f o g =>
      simp only at h h1 h2
      subst h
      simp [mouseDownListener, h1, h2]

/-! ## Pointer normalisation -/

theorem clickListenerMouse_eq (cx cy w h : ℚ) :
    clickListenerMouse cx cy w h = (cx / w * 2 - 1, -(cy / h) * 2 + 1) := rfl

/-- C13. For a viewport of width `w > 0` and height `h > 0` and a pixel
position with `0 ≤ clientX ≤ w` and `0 ≤ clientY ≤ h`, both click handlers
compute `x = clientX / w * 2 - 1` and `y = -(clientY / h) * 2 + 1`, both within
`[-1, 1]`; `(0, 0)` maps to `(-1, 1)` and `(w, h)` to `(1, -1)`; `x` is strictly
increasing in `clientX` and `y` strictly decreasing in `clientY`. -/
theorem pointer_normalisation (w h cx cy : ℚ) (hw : 0 < w) (hh : 0 < h)
    (hx0 : 0 ≤ cx) (hx1 : cx ≤ w) (hy0 : 0 ≤ cy) (hy1 : cy ≤ h) :
    onMouseClickMouse cx cy w h = clickListenerMouse cx cy w h ∧
    (clickListenerMouse cx cy w h).1 = cx / w * 2 - 1 ∧
    (clickListenerMouse cx cy w h).2 = -(cy / h) * 2 + 1 ∧
    (-1 ≤ (clickListenerMouse cx cy w h).1 ∧ (clickListenerMouse cx cy w h).1 ≤ 1) ∧
    (-1 ≤ (clickListenerMouse cx cy w h).2 ∧ (clickListenerMouse cx cy w h).2 ≤ 1) ∧
    clickListenerMouse 0 0 w h = (-1, 1) ∧
    clickListenerMouse w h w h = (1, -1) ∧
    (∀ cx2, cx < cx2 →
      (clickListenerMouse cx cy w h).1 < (clickListenerMouse cx2 cy w h).1) ∧
    (∀ cy2, cy < cy2 →
      (clickListenerMouse cx cy2 w h).2 < (clickListenerMouse cx cy w h).2) := by
  have hxl : 0 ≤ cx / w := div_nonneg hx0 hw.le
  have hxu : cx / w ≤ 1 := (div_le_one hw).mpr hx1
  have hyl : 0 ≤ cy / h := div_nonneg hy0 hh.le
  have hyu : cy / h ≤ 1 := (div_le_one hh).mpr hy1
  have hwne : w ≠ 0 := hw.ne.symm
  have hhne : h ≠ 0 := hh.ne.symm
  refine ⟨rfl, rfl, rfl, ⟨?_, ?_⟩, ⟨?_, ?_⟩, ?_, ?_, fun cx2 hlt => ?_, fun cy2 hlt => ?_⟩
  · show -1 ≤ cx / w * 2 - 1
    linarith
  · show cx / w * 2 - 1 ≤ 1
    linarith
  · show -1 ≤ -(cy / h) * 2 + 1
    linarith
  · show -(cy / h) * 2 + 1 ≤ 1
    linarith
  · rw [clickListenerMouse_eq]
    norm_num
  · rw [clickListenerMouse_eq, div_self hwne, div_self hhne]
    norm_num
  · show cx / w * 2 - 1 < cx2 / w * 2 - 1
    have : cx / w < cx2 / w := div_lt_div_of_pos_right hlt hw
    linarith
  · show -(cy2 / h) * 2 + 1 < -(cy / h) * 2 + 1
    have : cy / h < cy2 / h := div_lt_div_of_pos_right hlt hh
    linarith

theorem pointer_normalisation_witness :
    (0 : ℚ) < 1920 ∧ (0 : ℚ) < 1080 ∧
    onMouseClickMouse 480 810 1920 1080 = clickListenerMouse 480 810 1920 1080 ∧
    clickListenerMouse 480 810 1920 1080 = (-1 / 2, -1 / 2) ∧
    clickListenerMouse 0 0 1920 1080 = (-1, 1) ∧
    clickListenerMouse 1920 1080 1920 1080 = (1, -1) ∧
    (clickListenerMouse 480 810 1920 1080).1 < (clickListenerMouse 960 810 1920 1080).1 ∧
    (clickListenerMouse 480 1080 1920 1080).2 < (clickListenerMouse 480 810 1920 1080).2 := by
  obtain ⟨h1, h2, h3, _, _, h6, h7, h8, h9⟩ :=
    pointer_normalisation 1920 1080 480 810 (by norm_num) (by norm_num) (by norm_num)
      (by norm_num) (by norm_num) (by norm_num)
  refine ⟨by norm_num, by norm_num, h1, ?_, h6, h7, h8 960 (by norm_num),
    h9 1080 (by norm_num)⟩
  rw [clickListenerMouse_eq]
  norm_num

end ThreeScene
